import Mathlib

/-!
Shallow embedding of `src/app.py` (a Flask + SQLite task list).

The SQLite table `tasks (id INTEGER PRIMARY KEY AUTOINCREMENT, title TEXT
NOT NULL, description TEXT, completed BOOLEAN DEFAULT 0)` is modelled as a
list of rows kept in insertion order together with the AUTOINCREMENT
counter `seq` (SQLite keeps the largest id ever handed out in
`sqlite_sequence`; a fresh insert receives `seq + 1` and the counter never
decreases, also across deletes).  Each repository function of `app.py`
becomes a pure function on this state; the route handlers become
functions from the parsed request to a new state and a response, with
`Option` recording the unhandled `KeyError` a missing form field raises.
-/

namespace App

/-- Row of the `tasks` table: id, title, description, completed. -/
structure Task where
  id : Nat
  title : String
  description : String
  completed : Bool
  deriving Repr, DecidableEq

/-- State of `tasks.db`: rows in insertion order plus the AUTOINCREMENT
counter (largest id ever assigned). -/
structure Store where
  rows : List Task
  seq : Nat
  deriving Repr, DecidableEq

/-- State right after `init_db` on a fresh file (`app.py` lines 8-17):
the table exists and is empty, no id has been assigned. -/
def emptyStore : Store := ⟨[], 0⟩

/-- Insert a task into a list that is sorted by descending id, keeping it
sorted (ties go in front, matching that SQLite's ORDER BY is a sort on
the id key alone). -/
def insertDescById (t : Task) : List Task → List Task
  | [] => [t]
  | u :: us => if u.id ≤ t.id then t :: u :: us else u :: insertDescById t us

/-- Sort a list of tasks by descending id. -/
def sortDescById : List Task → List Task
  | [] => []
  | t :: ts => insertDescById t (sortDescById ts)

/-- Model of `get_tasks` (`app.py` lines 20-26):
SELECT * FROM tasks ORDER BY id DESC, returning every row. -/
def get_tasks (s : Store) : List Task := sortDescById s.rows

/-- Model of `add_task` (`app.py` lines 29-34):
INSERT INTO tasks (title, description) VALUES (?, ?).  The id column is
filled by AUTOINCREMENT with `seq + 1` and `completed` takes its default
value 0 (false). -/
def add_task (title description : String) (s : Store) : Store :=
  ⟨s.rows ++ [⟨s.seq + 1, title, description, false⟩], s.seq + 1⟩

/-- Model of `complete_task` (`app.py` lines 37-42):
UPDATE tasks SET completed = 1 WHERE id = ?. -/
def complete_task (task_id : Nat) (s : Store) : Store :=
  ⟨s.rows.map (fun t => if t.id = task_id then ⟨t.id, t.title, t.description, true⟩ else t),
   s.seq⟩

/-- Model of `delete_task` (`app.py` lines 45-50):
DELETE FROM tasks WHERE id = ?.  The AUTOINCREMENT counter is untouched. -/
def delete_task (task_id : Nat) (s : Store) : Store :=
  ⟨s.rows.filter (fun t => t.id ≠ task_id), s.seq⟩

/-- Parsed body of a POST to `/add`: `request.form` may or may not carry
each field. -/
structure Form where
  title : Option String
  description : Option String
  deriving Repr, DecidableEq

/-- Responses the handlers produce: a redirect to `/` or the rendered
listing page. -/
inductive Response where
  | redirectIndex : Response
  | renderIndex : List Task → Response
  deriving Repr, DecidableEq

/-- Model of the `/` handler (`app.py` lines 52-55). -/
def indexHandler (s : Store) : Store × Response :=
  (s, Response.renderIndex (get_tasks s))

/-- Model of the `/add` handler (`app.py` lines 57-63): it reads
`request.form[..]` for title and then for description unconditionally (a
missing key raises an uncaught KeyError, modelled as `none`), inserts only
when the title is truthy (a non-empty string), and redirects to `/`. -/
def addHandler (form : Form) (s : Store) : Option (Store × Response) :=
  match form.title with
  | none => none
  | some title =>
    match form.description with
    | none => none
    | some description =>
      some (if title ≠ "" then add_task title description s else s,
            Response.redirectIndex)

/-- Model of the `/complete/<int:task_id>` handler (`app.py` lines 65-68). -/
def completeHandler (task_id : Nat) (s : Store) : Store × Response :=
  (complete_task task_id s, Response.redirectIndex)

/-- Model of the `/delete/<int:task_id>` handler (`app.py` lines 70-73). -/
def deleteHandler (task_id : Nat) (s : Store) : Store × Response :=
  (delete_task task_id s, Response.redirectIndex)

/-- A store-mutating repository call, for reasoning about arbitrary
sequences of operations. -/
inductive Op where
  | add : String → String → Op
  | complete : Nat → Op
  | delete : Nat → Op
  deriving Repr, DecidableEq

/-- Apply one repository call to the store. -/
def applyOp (s : Store) : Op → Store
  | Op.add title description => add_task title description s
  | Op.complete i => complete_task i s
  | Op.delete i => delete_task i s

/-- Run a sequence of repository calls from a given store. -/
def runFrom (s : Store) (ops : List Op) : Store := ops.foldl applyOp s

/-- Run a sequence of repository calls from the freshly initialised store. -/
def runOps (ops : List Op) : Store := runFrom emptyStore ops

/-- Invariant that every reachable store satisfies: every assigned id is
at most the AUTOINCREMENT counter, and the rows are strictly ascending in
id (insertion order equals id order). -/
def Inv (s : Store) : Prop :=
  (∀ t ∈ s.rows, t.id ≤ s.seq) ∧ s.rows.Pairwise (fun a b => a.id < b.id)

instance : DecidablePred Inv := fun s => by
  unfold Inv
  infer_instance

/-! ### Lemmas about the ORDER BY id DESC sort -/

theorem perm_insertDescById (t : Task) (l : List Task) :
    (insertDescById t l).Perm (t :: l) := by
  induction l with
  | nil => simp [insertDescById]
  | cons u us ih =>
    by_cases h : u.id ≤ t.id
    · simp [insertDescById, h]
    · simp only [insertDescById, if_neg h]
      exact (ih.cons u).trans (List.Perm.swap t u us)

theorem perm_sortDescById (l : List Task) : (sortDescById l).Perm l := by
  induction l with
  | nil => simp [sortDescById]
  | cons t ts ih =>
    exact (perm_insertDescById t (sortDescById ts)).trans (ih.cons t)

theorem mem_sortDescById {t : Task} {l : List Task} :
    t ∈ sortDescById l ↔ t ∈ l :=
  (perm_sortDescById l).mem_iff

theorem length_sortDescById (l : List Task) :
    (sortDescById l).length = l.length :=
  (perm_sortDescById l).length_eq

theorem insertDescById_of_lt (t : Task) (l : List Task)
    (h : ∀ u ∈ l, t.id < u.id) : insertDescById t l = l ++ [t] := by
  induction l with
  | nil => rfl
  | cons u us ih =>
    have hu : t.id < u.id := h u (List.mem_cons_self u us)
    simp only [insertDescById, if_neg (by omega : ¬ u.id ≤ t.id)]
    rw [ih (fun v hv => h v (List.mem_cons_of_mem u hv))]
    rfl

theorem sortDescById_of_sorted (l : List Task)
    (h : l.Pairwise (fun a b => a.id < b.id)) : sortDescById l = l.reverse := by
  induction l with
  | nil => rfl
  | cons t ts ih =>
    obtain ⟨h1, h2⟩ := List.pairwise_cons.mp h
    show insertDescById t (sortDescById ts) = (t :: ts).reverse
    rw [ih h2, insertDescById_of_lt]
    · simp
    · intro u hu
      exact h1 u (List.mem_reverse.mp hu)

theorem get_tasks_eq_reverse (s : Store)
    (h : s.rows.Pairwise (fun a b => a.id < b.id)) :
    get_tasks s = s.rows.reverse :=
  sortDescById_of_sorted s.rows h

/-! ### The reachability invariant -/

theorem Inv_emptyStore : Inv emptyStore := by
  constructor <;> simp [emptyStore]

theorem Inv_add_task (title description : String) (s : Store) (h : Inv s) :
    Inv (add_task title description s) := by
  obtain ⟨h1, h2⟩ := h
  constructor
  · intro t ht
    rcases List.mem_append.mp ht with ht | ht
    · exact le_trans (h1 t ht) (Nat.le_succ _)
    · rw [List.mem_singleton.mp ht]
      exact le_refl _
  · rw [add_task, List.pairwise_append]
    refine ⟨h2, List.pairwise_singleton _ _, ?_⟩
    intro a ha b hb
    rw [List.mem_singleton.mp hb]
    exact Nat.lt_succ_of_le (h1 a ha)

theorem Inv_complete_task (i : Nat) (s : Store) (h : Inv s) :
    Inv (complete_task i s) := by
  obtain ⟨h1, h2⟩ := h
  constructor
  · intro t ht
    obtain ⟨u, hu, hut⟩ := List.mem_map.mp ht
    have htid : t.id = u.id := by
      by_cases hui : u.id = i
      · simp [hui] at hut
        subst hut
        simp [hui]
      · simp [hui] at hut
        subst hut
        rfl
    rw [htid]
    exact h1 u hu
  · refine List.Pairwise.map _ ?_ h2
    intro a b hab
    by_cases ha : a.id = i <;> by_cases hb : b.id = i <;>
      simp [ha, hb, hab] <;> omega

theorem Inv_delete_task (i : Nat) (s : Store) (h : Inv s) :
    Inv (delete_task i s) := by
  obtain ⟨h1, h2⟩ := h
  constructor
  · intro t ht
    exact h1 t (List.mem_of_mem_filter ht)
  · exact h2.sublist (List.filter_sublist s.rows)

theorem Inv_applyOp (s : Store) (op : Op) (h : Inv s) : Inv (applyOp s op) := by
  cases op with
  | add title description => exact Inv_add_task title description s h
  | complete i => exact Inv_complete_task i s h
  | delete i => exact Inv_delete_task i s h

theorem Inv_runFrom (ops : List Op) :
    ∀ s : Store, Inv s → Inv (runFrom s ops) := by
  induction ops with
  | nil => intro s h; exact h
  | cons op ops ih => intro s h; exact ih (applyOp s op) (Inv_applyOp s op h)

theorem Inv_runOps (ops : List Op) : Inv (runOps ops) :=
  Inv_runFrom ops emptyStore Inv_emptyStore

theorem seq_applyOp (s : Store) (op : Op) : s.seq ≤ (applyOp s op).seq := by
  cases op with
  | add title description => exact Nat.le_succ _
  | complete i => exact le_refl _
  | delete i => exact le_refl _

theorem seq_runFrom (ops : List Op) :
    ∀ s : Store, s.seq ≤ (runFrom s ops).seq := by
  induction ops with
  | nil => intro s; exact le_refl _
  | cons op ops ih =>
    intro s
    exact le_trans (seq_applyOp s op) (ih (applyOp s op))

/-- After `complete_task i`, every row bearing id `i` has completed = 1. -/
theorem completed_after_complete (s : Store) (i : Nat) :
    ∀ t ∈ (complete_task i s).rows, t.id = i → t.completed = true := by
  intro t ht hti
  obtain ⟨u, hu, hut⟩ := List.mem_map.mp ht
  by_cases hj : u.id = i
  · simp [hj] at hut
    subst hut
    rfl
  · simp [hj] at hut
    subst hut
    exact absurd hti hj

/-- One repository call never turns a completed row with id `i` back to
false, as long as `i` is an id the AUTOINCREMENT counter has passed. -/
theorem completed_stays_step (i : Nat) (s : Store) (op : Op)
    (hseq : i ≤ s.seq)
    (hc : ∀ t ∈ s.rows, t.id = i → t.completed = true) :
    ∀ t ∈ (applyOp s op).rows, t.id = i → t.completed = true := by
  intro t ht hti
  cases op with
  | add a b =>
    rcases List.mem_append.mp ht with ht | ht
    · exact hc t ht hti
    · have hnew : s.seq + 1 = i := by
        rw [List.mem_singleton.mp ht] at hti
        exact hti
      omega
  | complete j =>
    obtain ⟨u, hu, hut⟩ := List.mem_map.mp ht
    by_cases hj : u.id = j
    · simp [hj] at hut
      subst hut
      rfl
    · simp [hj] at hut
      subst hut
      exact hc u hu hti
  | delete j =>
    exact hc t (List.mem_of_mem_filter ht) hti

/-- No sequence of repository calls ever turns a completed row with id `i`
back to false. -/
theorem completed_stays (i : Nat) (ops : List Op) :
    ∀ s : Store, i ≤ s.seq →
    (∀ t ∈ s.rows, t.id = i → t.completed = true) →
    ∀ t ∈ (runFrom s ops).rows, t.id = i → t.completed = true := by
  induction ops with
  | nil => intro s _ hc; exact hc
  | cons op ops ih =>
    intro s hseq hc
    exact ih (applyOp s op) (le_trans hseq (seq_applyOp s op))
      (completed_stays_step i s op hseq hc)

/-! ### The claims -/

/-- C1: for every task id whose row exists in the store, `complete_task`
sets that row's completed flag to true regardless of its current value,
applying it again changes nothing (idempotent), and no further sequence of
repository calls — hence no route — ever resets the flag to false. -/
theorem C1_complete_idempotent_one_way (s : Store) (i : Nat) (hInv : Inv s)
    (hex : ∃ t ∈ s.rows, t.id = i) :
    (∀ t ∈ (complete_task i s).rows, t.id = i → t.completed = true) ∧
    complete_task i (complete_task i s) = complete_task i s ∧
    (∀ ops : List Op, ∀ t ∈ (runFrom (complete_task i s) ops).rows,
      t.id = i → t.completed = true) := by
  obtain ⟨u, hu, hui⟩ := hex
  have hseq : i ≤ s.seq := hui ▸ hInv.1 u hu
  refine ⟨completed_after_complete s i, ?_, ?_⟩
  · simp only [complete_task, List.map_map]
    congr 1
    refine List.map_congr_left ?_
    intro a _
    by_cases h : a.id = i <;> simp [h, Function.comp]
  · intro ops
    exact completed_stays i ops (complete_task i s) hseq
      (completed_after_complete s i)

/-- C1 witness: a concrete store with one uncompleted task of id 1. -/
theorem C1_witness :
    Inv ⟨[⟨1, "a", "b", false⟩], 1⟩ ∧
    (∃ t ∈ (⟨[⟨1, "a", "b", false⟩], 1⟩ : Store).rows, t.id = 1) ∧
    complete_task 1 (complete_task 1 ⟨[⟨1, "a", "b", false⟩], 1⟩) =
      complete_task 1 ⟨[⟨1, "a", "b", false⟩], 1⟩ :=
  ⟨by decide, by decide,
    (C1_complete_idempotent_one_way ⟨[⟨1, "a", "b", false⟩], 1⟩ 1
      (by decide) (by decide)).2.1⟩

/-- C5: `complete_task` on an id with no matching row is a no-op: the
UPDATE matches no row and the store (rows and counter) is unchanged. -/
theorem C5_complete_unknown_noop (s : Store) (i : Nat)
    (h : ∀ t ∈ s.rows, t.id ≠ i) : complete_task i s = s := by
  cases s with
  | mk rows seq =>
    simp only [complete_task]
    congr 1
    calc rows.map (fun t => if t.id = i then ⟨t.id, t.title, t.description, true⟩ else t)
        = rows.map id := List.map_congr_left (fun t ht => by simp [h t ht])
      _ = rows := List.map_id rows

/-- C5 witness: completing the absent id 2 leaves a one-row store as is. -/
theorem C5_witness :
    (∀ t ∈ (⟨[⟨1, "a", "b", false⟩], 1⟩ : Store).rows, t.id ≠ 2) ∧
    complete_task 2 ⟨[⟨1, "a", "b", false⟩], 1⟩ = ⟨[⟨1, "a", "b", false⟩], 1⟩ :=
  ⟨by decide, C5_complete_unknown_noop ⟨[⟨1, "a", "b", false⟩], 1⟩ 2 (by decide)⟩

/-- C3: after `delete_task i` the listing contains no task with id `i`,
whatever the store was; and when no row bears id `i` the delete is a
no-op that leaves the store unchanged. -/
theorem C3_delete_idempotent_noop (s : Store) (i : Nat) :
    (∀ t ∈ get_tasks (delete_task i s), t.id ≠ i) ∧
    ((∀ t ∈ s.rows, t.id ≠ i) → delete_task i s = s) := by
  constructor
  · intro t ht
    have ht2 : t ∈ (delete_task i s).rows := mem_sortDescById.mp ht
    have := List.of_mem_filter ht2
    simpa using this
  · intro h
    cases s with
    | mk rows seq =>
      simp only [delete_task]
      congr 1
      refine List.filter_eq_self.mpr ?_
      intro t ht
      simpa using h t ht

/-- C3 witness: deleting the absent id 2 from a one-row store changes
nothing, and the listing after deleting id 1 has no task with id 1. -/
theorem C3_witness :
    (∀ t ∈ get_tasks (delete_task 1 ⟨[⟨1, "a", "b", false⟩], 1⟩), t.id ≠ 1) ∧
    delete_task 2 ⟨[⟨1, "a", "b", false⟩], 1⟩ = ⟨[⟨1, "a", "b", false⟩], 1⟩ :=
  ⟨(C3_delete_idempotent_noop ⟨[⟨1, "a", "b", false⟩], 1⟩ 1).1,
    (C3_delete_idempotent_noop ⟨[⟨1, "a", "b", false⟩], 1⟩ 2).2 (by decide)⟩

/-- C7: `complete_task i` keeps the id, title and description of every row
(only the completed flag of rows with id `i` changes), it keeps every
other row as is, and no repository call ever rewrites the title or the
description of an existing row. -/
theorem C7_complete_frame (s : Store) (i : Nat) :
    ((complete_task i s).rows.map (fun t => (t.id, t.title, t.description)) =
      s.rows.map (fun t => (t.id, t.title, t.description))) ∧
    (∀ t ∈ s.rows, t.id ≠ i → t ∈ (complete_task i s).rows) ∧
    (∀ t ∈ s.rows, t.id = i →
      (⟨t.id, t.title, t.description, true⟩ : Task) ∈ (complete_task i s).rows) ∧
    (∀ (op : Op) (u : Task), u ∈ (applyOp s op).rows →
      (∃ t ∈ s.rows, u.id = t.id ∧ u.title = t.title ∧ u.description = t.description) ∨
      (∃ a b, op = Op.add a b ∧ u = ⟨s.seq + 1, a, b, false⟩)) := by
  refine ⟨?_, ?_, ?_, ?_⟩
  · rw [complete_task, List.map_map]
    refine List.map_congr_left ?_
    intro a _
    by_cases h : a.id = i <;> simp [h, Function.comp]
  · intro t ht hti
    refine List.mem_map.mpr ⟨t, ht, ?_⟩
    simp [hti]
  · intro t ht hti
    refine List.mem_map.mpr ⟨t, ht, ?_⟩
    simp [hti]
  · intro op u hu
    cases op with
    | add a b =>
      rcases List.mem_append.mp hu with hu | hu
      · exact Or.inl ⟨u, hu, rfl, rfl, rfl⟩
      · exact Or.inr ⟨a, b, rfl, List.mem_singleton.mp hu⟩
    | complete j =>
      obtain ⟨t, ht, htu⟩ := List.mem_map.mp hu
      refine Or.inl ⟨t, ht, ?_⟩
      by_cases hj : t.id = j
      · simp [hj] at htu
        subst htu
        exact ⟨hj.symm ▸ rfl, rfl, rfl⟩
      · simp [hj] at htu
        subst htu
        exact ⟨rfl, rfl, rfl⟩
    | delete j =>
      exact Or.inl ⟨u, List.mem_of_mem_filter hu, rfl, rfl, rfl⟩

/-- C2: for a non-empty title, `add_task` followed by `get_tasks` lists
exactly one more task than before, and the new task carries the given
title and description with completed = false and the freshly assigned
id. -/
theorem C2_add_then_list (s : Store) (title description : String)
    (htitle : title ≠ "") :
    (get_tasks (add_task title description s)).length = (get_tasks s).length + 1 ∧
    (⟨s.seq + 1, title, description, false⟩ : Task) ∈
      get_tasks (add_task title description s) := by
  constructor
  · show (sortDescById _).length = (sortDescById _).length + 1
    rw [length_sortDescById, length_sortDescById]
    simp [add_task]
  · exact mem_sortDescById.mpr (by simp [add_task])

/-- C2 witness: adding a task to the empty store. -/
theorem C2_witness :
    ("x" : String) ≠ "" ∧
    (get_tasks (add_task "x" "y" emptyStore)).length = (get_tasks emptyStore).length + 1 ∧
    (⟨1, "x", "y", false⟩ : Task) ∈ get_tasks (add_task "x" "y" emptyStore) :=
  ⟨by decide, C2_add_then_list emptyStore "x" "y" (by decide)⟩

/-- C4: on any store satisfying the reachability invariant, the listing
after an add is exactly the new task followed by the previous listing
(newest first), and the listing is always a permutation of the stored
rows — nothing omitted or truncated. -/
theorem C4_list_newest_first (s : Store) (hInv : Inv s)
    (title description : String) :
    get_tasks (add_task title description s) =
      (⟨s.seq + 1, title, description, false⟩ : Task) :: get_tasks s ∧
    (get_tasks s).Perm s.rows := by
  have h2 := (Inv_add_task title description s hInv).2
  constructor
  · rw [get_tasks_eq_reverse _ h2, get_tasks_eq_reverse s hInv.2]
    simp [add_task]
  · exact perm_sortDescById s.rows

/-- C4 witness: adding to a concrete invariant-satisfying store puts the
new task first. -/
theorem C4_witness :
    Inv ⟨[⟨1, "a", "b", false⟩], 1⟩ ∧
    get_tasks (add_task "x" "y" ⟨[⟨1, "a", "b", false⟩], 1⟩) =
      [⟨2, "x", "y", false⟩, ⟨1, "a", "b", false⟩] :=
  ⟨by decide,
    by
      have h := (C4_list_newest_first ⟨[⟨1, "a", "b", false⟩], 1⟩ (by decide) "x" "y").1
      rw [h]
      decide⟩

/-- C6 counterexample: a form whose title field is present and empty but
whose description field is absent makes the handler read
`request.form['description']` and raise an uncaught KeyError (modelled as
`none`): the handler does not respond with a redirect there, refuting the
claim as stated for that form. -/
theorem C6_counterexample :
    addHandler ⟨some "", none⟩ emptyStore = none := rfl

/-- C6 amended: when the form carries both a title field equal to the
empty string and a description field, no row is created — the store is
returned unchanged — and the handler responds with a redirect to `/`. -/
theorem C6_add_empty_title_noop (s : Store) (d : String) :
    addHandler ⟨some "", some d⟩ s = some (s, Response.redirectIndex) := by
  simp [addHandler]

/-- C9: a POST to `/add` lacking the description field (or the title
field) is an unhandled error before any store access: no store is
produced, so no row is created, whatever value the other field has. -/
theorem C9_missing_field_unhandled (s : Store) (a : Option String) (d : String) :
    addHandler ⟨a, none⟩ s = none ∧ addHandler ⟨none, some d⟩ s = none := by
  constructor
  · cases a <;> rfl
  · rfl

/-- C8: in every store reachable from the fresh store, task ids are
pairwise distinct; the completed field of every row is one of the two
boolean values; and every repository call maps the id sequence of the
rows to a subsequence of the old id sequence extended by the one fresh id
— so the id of every surviving row is left unchanged. -/
theorem C8_reachable_invariants (ops : List Op) :
    ((runOps ops).rows.map Task.id).Pairwise (fun a b => a ≠ b) ∧
    (∀ t ∈ (runOps ops).rows, t.completed = true ∨ t.completed = false) ∧
    (∀ (s : Store) (op : Op),
      ((applyOp s op).rows.map Task.id).Sublist
        ((s.rows.map Task.id) ++ [s.seq + 1])) := by
  refine ⟨?_, ?_, ?_⟩
  · exact List.pairwise_map.mpr ((Inv_runOps ops).2.imp (fun h => Nat.ne_of_lt h))
  · intro t _
    cases h : t.completed
    · exact Or.inr rfl
    · exact Or.inl rfl
  · intro s op
    cases op with
    | add a b =>
      rw [applyOp, add_task, List.map_append]
      exact List.Sublist.refl _
    | complete j =>
      have hids : (complete_task j s).rows.map Task.id = s.rows.map Task.id := by
        rw [complete_task, List.map_map]
        refine List.map_congr_left ?_
        intro t _
        by_cases hj : t.id = j <;> simp [hj, Function.comp]
      rw [applyOp, hids]
      exact List.sublist_append_left _ _
    | delete j =>
      refine List.Sublist.trans ?_ (List.sublist_append_left _ _)
      exact List.Sublist.map Task.id (List.filter_sublist s.rows)

/-- C10: ids of reachable rows are strictly increasing in stored order and
bounded by the AUTOINCREMENT counter; the counter never decreases under
further operations; and a later add always assigns the counter's
successor, an id strictly larger than every id present at any earlier
point — deleted rows included, so ids are never reused. -/
theorem C10_autoincrement_monotone (ops more : List Op)
    (title description : String) :
    ((runOps ops).rows.map Task.id).Pairwise (fun a b => a < b) ∧
    (∀ t ∈ (runOps ops).rows, t.id ≤ (runOps ops).seq) ∧
    (runOps ops).seq ≤ (runOps (ops ++ more)).seq ∧
    (add_task title description (runOps (ops ++ more))).rows.getLast? =
      some ⟨(runOps (ops ++ more)).seq + 1, title, description, false⟩ ∧
    (∀ t ∈ (runOps ops).rows, t.id < (runOps (ops ++ more)).seq + 1) := by
  have hmono : (runOps ops).seq ≤ (runOps (ops ++ more)).seq := by
    have h := seq_runFrom more (runOps ops)
    simp only [runOps, runFrom] at h ⊢
    rw [← List.foldl_append] at h
    exact h
  refine ⟨?_, (Inv_runOps ops).1, hmono, ?_, ?_⟩
  · exact List.pairwise_map.mpr (Inv_runOps ops).2
  · rw [add_task]
    simp
  · intro t ht
    have := (Inv_runOps ops).1 t ht
    omega

end App
